import Mathlib

/-!
Verification of the sudoku engine in `src/utils/sudokuGenerator.js` (plus the
self-excluding validity check of `SudokuTable.vue`).

Shallow embedding conventions:
* a digit string `"1" .. "9"` is a `Digit := Fin 9` (digit `d` stands for the
  string of the number `d.val + 1`); the empty string `''` is `none`;
* the 9×9 array of `{ value, isStatic }` cells is a function
  `Grid := Fin 9 → Fin 9 → Cell`;
* in-place mutation of a cell becomes the functional update `setVal`; the
  backtracking recursions of `solveSudoku`, `getSolutionCount` and
  `fillSudoku` become fuel-indexed structural recursions, where the fuel `81`
  always dominates the number of empty cells (the quantity the JS recursion
  actually decreases);
* the Fisher-Yates `shuffle` collaborator is not part of `src/`; it is
  modelled from the spec (§6: "a random-shuffle primitive producing a
  uniformly random permutation of a finite sequence") as an oracle
  `Shuffler` supplying one permutation of the digits per fill call and one
  permutation of the 81 positions per generation attempt.
-/

set_option maxHeartbeats 1000000
set_option maxRecDepth 2000
set_option linter.constructorNameAsVariable false

/-- Digits 1..9: `(d : Digit)` stands for the JS digit string of `d.val + 1`. -/
abbrev Digit := Fin 9

/-- Mirror of the JS cell object `{ value, isStatic }`; `value = none` is `''`. -/
structure Cell where
  value : Option Digit
  isStatic : Bool
deriving DecidableEq

/-- Mirror of `SudokuGrid`: a fixed 9×9 arrangement of cells. -/
abbrev Grid := Fin 9 → Fin 9 → Cell

/-- Mirror of `copyGrid`: a deep copy rebuilding every cell from its fields. -/
def copyGrid (g : Grid) : Grid :=
  fun r c => { value := (g r c).value, isStatic := (g r c).isStatic }

/-- Functional form of the JS assignment `grid[r][c].value = v`. -/
def setVal (g : Grid) (r c : Fin 9) (v : Option Digit) : Grid :=
  fun r' c' => if r' = r ∧ c' = c then { g r' c' with value := v } else g r' c'

/-- All 81 positions in the row-major order of the JS double loop. -/
def allPos : List (Fin 9 × Fin 9) :=
  (List.finRange 9).flatMap fun r => (List.finRange 9).map fun c => (r, c)

/-- Mirror of `findEmpty`: first position (row-major) whose cell is empty. -/
def findEmpty (g : Grid) : Option (Fin 9 × Fin 9) :=
  allPos.find? fun p => decide ((g p.1 p.2).value = none)

/-- Row index of the `i`-th row of the 3×3 block of `rc`
(the JS `3 * Math.floor(rc / 3) + i`). -/
def boxCell (rc : Fin 9) (i : Fin 3) : Fin 9 :=
  ⟨3 * (rc.val / 3) + i.val, by omega⟩

/-- Mirror of `isValid`: the row scan, the column scan and the 3×3 block scan,
none of which excludes the target cell `(row, col)` itself. -/
def isValid (g : Grid) (row col : Fin 9) (v : Digit) : Bool :=
  decide ((∀ i : Fin 9, (g row i).value ≠ some v) ∧
          (∀ i : Fin 9, (g i col).value ≠ some v) ∧
          (∀ i j : Fin 3, (g (boxCell row i) (boxCell col j)).value ≠ some v))

/-- Mirror of `isValidForCell` (SudokuTable.vue): empty input is accepted, and
every scan skips the target cell `(row, col)` itself. -/
def isValidForCell (g : Grid) (row col : Fin 9) (value : Option Digit) : Bool :=
  match value with
  | none => true
  | some v =>
      decide ((∀ i : Fin 9, i ≠ col → (g row i).value ≠ some v) ∧
              (∀ i : Fin 9, i ≠ row → (g i col).value ≠ some v) ∧
              (∀ i j : Fin 3, ¬(boxCell row i = row ∧ boxCell col j = col) →
                (g (boxCell row i) (boxCell col j)).value ≠ some v))

/-- Mirror of `isGridComplete`: every cell is non-empty. -/
def isGridComplete (g : Grid) : Bool :=
  decide (∀ r c : Fin 9, (g r c).value ≠ none)

/-- Values of row `r` in column order (the JS row check of `isGridSolved`). -/
def rowVals (g : Grid) (r : Fin 9) : List (Option Digit) :=
  (List.finRange 9).map fun c => (g r c).value

/-- Values of column `c` in row order (the JS column check of `isGridSolved`). -/
def colVals (g : Grid) (c : Fin 9) : List (Option Digit) :=
  (List.finRange 9).map fun r => (g r c).value

/-- Values of block `(br, bc)` (the JS block check of `isGridSolved`). -/
def boxVals (g : Grid) (br bc : Fin 3) : List (Option Digit) :=
  (List.finRange 3).flatMap fun i => (List.finRange 3).map fun j =>
    (g ⟨3 * br.val + i.val, by omega⟩ ⟨3 * bc.val + j.val, by omega⟩).value

/-- Mirror of `isGridSolved`: completeness first, then a duplicate scan of each
row, column and block (the seen-set finds a duplicate iff the 9 values of the
group are not pairwise distinct, i.e. iff the group list is not `Nodup`). -/
def isGridSolved (g : Grid) : Bool :=
  isGridComplete g &&
  decide ((∀ r : Fin 9, (rowVals g r).Nodup) ∧
          (∀ c : Fin 9, (colVals g c).Nodup) ∧
          (∀ br bc : Fin 3, (boxVals g br bc).Nodup))

/-- First-success iteration of the candidate loop shared by `solveSudoku` and
`fillSudoku`: try each digit of `vs` in order; on a valid digit recurse via
`rec`; propagate the first success; undoing a failed placement is the
functional no-op of resuming with the unmodified grid. -/
def tryList (valid : Digit → Bool) (rec : Digit → Option Grid) :
    List Digit → Option Grid
  | [] => none
  | v :: vs =>
    if valid v then
      match rec v with
      | some h => some h
      | none => tryList valid rec vs
    else tryList valid rec vs

/-- Backtracking search of the inner `solve` of `solveSudoku` (and, with a
randomized candidate order, of `fillSudoku`): find the first empty cell and try
the digits `ord g` there.  The fuel only bounds the recursion depth; the JS
recursion consumes one empty cell per level, so any fuel at least the number of
empty cells (81 always works) reproduces it exactly. -/
def fillAux (ord : Grid → List Digit) : Nat → Grid → Option Grid
  | 0, g =>
    match findEmpty g with
    | none => some g
    | some _ => none
  | fuel + 1, g =>
    match findEmpty g with
    | none => some g
    | some (r, c) =>
        tryList (isValid g r c) (fun v => fillAux ord fuel (setVal g r c (some v))) (ord g)

/-- Ascending candidate order `"1" .. "9"` of the JS `for (num = 1; num <= 9)`. -/
def ascOrder : Grid → List Digit := fun _ => List.finRange 9

/-- Mirror of `solveSudoku`: clone, then backtrack with ascending candidates. -/
def solveSudoku (g : Grid) : Option Grid :=
  fillAux ascOrder 81 (copyGrid g)

/-- Candidate loop of the inner `solve` of `getSolutionCount`: every valid
digit is explored (no break), threading the running count through `go`. -/
def countList (go : Grid → Nat → Nat) (g : Grid) (r c : Fin 9) :
    List Digit → Nat → Nat
  | [], count => count
  | v :: vs, count =>
    if isValid g r c v then
      countList go g r c vs (go (setVal g r c (some v)) count)
    else countList go g r c vs count

/-- Counting search of the inner `solve` of `getSolutionCount`: early exit at
`cap`, increment on a complete grid, otherwise recurse over all valid digits at
the first empty cell.  Fuel as in `fillAux`. -/
def countAux (cap : Nat) : Nat → Grid → Nat → Nat
  | 0, g, count =>
    if cap ≤ count then count
    else
      match findEmpty g with
      | none => count + 1
      | some _ => count
  | fuel + 1, g, count =>
    if cap ≤ count then count
    else
      match findEmpty g with
      | none => count + 1
      | some (r, c) => countList (countAux cap fuel) g r c (List.finRange 9) count

/-- Mirror of `getSolutionCount`: clone, then count solutions up to `maxCount`. -/
def getSolutionCount (g : Grid) (maxCount : Nat) : Nat :=
  countAux maxCount 81 (copyGrid g) 0

/-- Mirror of `createEmptyGrid`: every cell `{ value: '', isStatic: false }`. -/
def createEmptyGrid : Grid := fun _ _ => { value := none, isStatic := false }

/-- Two positions share a unit when they share a row, a column or a 3×3 block
(block index `3*(row/3) + col/3`, spec §3). -/
def sameUnit (r c r' c' : Fin 9) : Prop :=
  r = r' ∨ c = c' ∨ (r.val / 3 = r'.val / 3 ∧ c.val / 3 = c'.val / 3)

instance (r c r' c' : Fin 9) : Decidable (sameUnit r c r' c') := by
  unfold sameUnit
  infer_instance

/-- Spec §3 invariant "valid board": no digit appears more than once among the
non-empty cells of any row, column or block. -/
def Consistent (g : Grid) : Prop :=
  ∀ r c r' c' (v : Digit), sameUnit r c r' c' → (r, c) ≠ (r', c') →
    (g r c).value = some v → (g r' c').value ≠ some v

instance (g : Grid) : Decidable (Consistent g) := by
  unfold Consistent
  infer_instance

/-- Consistency of a complete assignment of digits to the 81 positions. -/
def ConsistentF (f : Fin 9 → Fin 9 → Digit) : Prop :=
  ∀ r c r' c', sameUnit r c r' c' → (r, c) ≠ (r', c') → f r c ≠ f r' c'

instance (f : Fin 9 → Fin 9 → Digit) : Decidable (ConsistentF f) := by
  unfold ConsistentF
  infer_instance

/-- A complete assignment solves `g` when it reproduces every non-empty cell of
`g` and is consistent. -/
def Sol (g : Grid) (f : Fin 9 → Fin 9 → Digit) : Prop :=
  (∀ r c (v : Digit), (g r c).value = some v → f r c = v) ∧ ConsistentF f

instance (g : Grid) : DecidablePred (Sol g) := by
  intro f
  unfold Sol
  infer_instance

/-- The set of complete consistent assignments extending the non-empty cells
of `g`; two boards extend `g` in the same way exactly when their value
assignments agree, so solutions are counted as assignments. -/
def solSet (g : Grid) : Finset (Fin 9 → Fin 9 → Digit) :=
  Finset.univ.filter (Sol g)

/-- Number of distinct complete consistent boards extending `g`. -/
def numSolutions (g : Grid) : Nat := (solSet g).card

/-- Number of empty cells of `g` (the measure the JS recursions decrease). -/
def emptyCount (g : Grid) : Nat :=
  (Finset.univ.filter fun p : Fin 9 × Fin 9 => (g p.1 p.2).value = none).card

/-- Number of non-empty cells of `g`. -/
def clueCount (g : Grid) : Nat :=
  (Finset.univ.filter fun p : Fin 9 × Fin 9 => (g p.1 p.2).value ≠ none).card

/-- Number of cells flagged as static clues. -/
def staticCount (g : Grid) : Nat :=
  (Finset.univ.filter fun p : Fin 9 × Fin 9 => (g p.1 p.2).isStatic = true).card

/-- Grid `h` agrees with every non-empty cell of `g`. -/
def Extends (g h : Grid) : Prop :=
  ∀ r c (v : Digit), (g r c).value = some v → (h r c).value = some v

/-- Two grids carrying the same values cell for cell (they may differ on the
`isStatic` flags, which the searches never read). -/
def valueEq (g h : Grid) : Prop := ∀ r c, (g r c).value = (h r c).value

/-- Canonical complete consistent assignment
`(r, c) ↦ (3*(r % 3) + r / 3 + c) % 9`, used only as an existence witness. -/
def canonicalF : Fin 9 → Fin 9 → Digit :=
  fun r c => ⟨(3 * (r.val % 3) + r.val / 3 + c.val) % 9, by omega⟩

/-- Canonical solved grid built from `canonicalF`. -/
def canonicalGrid : Grid := fun r c => { value := some (canonicalF r c), isStatic := false }

/-- Solution mass of a digit list at the branching cell: solutions through the
valid digits of the list, none through the rejected ones. -/
def solMass (g : Grid) (r c : Fin 9) (vs : List Digit) : Nat :=
  (vs.map fun v => if isValid g r c v = true
    then numSolutions (setVal g r c (some v)) else 0).sum

/-- Modelled from the spec: the `shuffle` collaborator (`shuffle.js`, not part
of the sources) "producing a uniformly random permutation of a finite
sequence" (§6).  The oracle hands the generator one digit permutation per fill
call (the JS reshuffles at every recursive call, and the current grid uniquely
identifies the call node) and one position permutation per attempt `n`. -/
structure Shuffler where
  digitOrd : Nat → Grid → List Digit
  posOrd : Nat → List (Fin 9 × Fin 9)
  digitOrd_perm : ∀ n g, (digitOrd n g).Perm (List.finRange 9)
  posOrd_perm : ∀ n, (posOrd n).Perm allPos

/-- Degenerate oracle whose shuffles are the identity permutations. -/
def R0 : Shuffler where
  digitOrd := fun _ _ => List.finRange 9
  posOrd := fun _ => allPos
  digitOrd_perm := fun _ _ => List.Perm.refl _
  posOrd_perm := fun _ => List.Perm.refl _

/-- Mirror of the static-marking pass of `generateSudoku`
(`isStatic = !!value`). -/
def markStatic (g : Grid) : Grid :=
  fun r c => { value := (g r c).value, isStatic := ((g r c).value).isSome }

/-- Mirror of the dig phase of `generateSudoku`: walk the position list; stop
when `removed >= maxToRemove`; tentatively clear each cell and keep the
clearing exactly when the board still has a unique solution, otherwise write
the backup value back. -/
def digLoop (maxToRemove : Int) : List (Fin 9 × Fin 9) → Grid → Nat → Grid × Nat
  | [], g, removed => (g, removed)
  | p :: ps, g, removed =>
    if maxToRemove ≤ (removed : Int) then (g, removed)
    else
      if getSolutionCount (setVal g p.1 p.2 none) 2 ≠ 1 then
        digLoop maxToRemove ps
          (setVal (setVal g p.1 p.2 none) p.1 p.2 ((g p.1 p.2).value)) removed
      else
        digLoop maxToRemove ps (setVal g p.1 p.2 none) (removed + 1)

/-- One attempt of `generateSudoku` (the body of the `while` loop): fill an
empty grid (the JS ignores `fillSudoku`'s boolean, keeping the grid it
mutated — the empty grid again if the fill failed), dig with target
`81 - minFilled`, then mark the remaining clues static. -/
def attemptBody (R : Shuffler) (n : Nat) (minFilled : Int) : Grid :=
  markStatic (digLoop (81 - minFilled) (R.posOrd n)
    ((fillAux (R.digitOrd n) 81 createEmptyGrid).getD createEmptyGrid) 0).1

/-- Mirror of `generateSudoku` with an explicit recursion budget `fuel` for the
relaxation recursion (`none` models a computation that never returns).  The
body of the JS `while (attempt++ < maxTries)` loop ends in an unconditional
`return`, so the loop is one attempt when `0 < maxTries` and zero attempts
otherwise, in which case the function recurses with
`min(minFilled + 10, 45)` and the same `maxTries`. -/
def generateSudokuF (R : Shuffler) : Nat → Nat → Int → Int → Option Grid
  | 0, _, _, _ => none
  | fuel + 1, n, minFilled, maxTries =>
    if 1 ≤ maxTries then some (attemptBody R n minFilled)
    else generateSudokuF R fuel (n + 1) (min (minFilled + 10) 45) maxTries

/-- Mirror of `generateSudoku` starting at attempt index `0`. -/
def generateSudoku (R : Shuffler) (fuel : Nat) (minFilled maxTries : Int) : Option Grid :=
  generateSudokuF R fuel 0 minFilled maxTries

/-- State-threaded candidate loop of the inner `solve` of `getSolutionCount`,
mirroring the in-place writes: place the digit, run the recursive search on
the grid object, then reset the cell to empty on the grid state the recursion
returns. -/
def countListSt (go : Grid → Nat → Nat × Grid) (r c : Fin 9) :
    List Digit → Grid → Nat → Nat × Grid
  | [], g, count => (count, g)
  | v :: vs, g, count =>
    if isValid g r c v then
      countListSt go r c vs
        (setVal (go (setVal g r c (some v)) count).2 r c none)
        (go (setVal g r c (some v)) count).1
    else countListSt go r c vs g count

/-- State-threaded counting search: `countAux` returning alongside the count
the final state of the grid object it mutates. -/
def countAuxSt (cap : Nat) : Nat → Grid → Nat → Nat × Grid
  | 0, g, count =>
    if cap ≤ count then (count, g)
    else
      match findEmpty g with
      | none => (count + 1, g)
      | some _ => (count, g)
  | fuel + 1, g, count =>
    if cap ≤ count then (count, g)
    else
      match findEmpty g with
      | none => (count + 1, g)
      | some (r, c) => countListSt (countAuxSt cap fuel) r c (List.finRange 9) g count

/-- Mirror of `getSolutionCount` with all grid state visible: the result is
(count, final state of the `copyGrid` clone, final state of the caller's
grid).  The caller's grid can only appear unchanged in the third component
because the search receives the clone, whose cells `{ ...cell }` are fresh
objects sharing nothing with the caller's rows. -/
def getSolutionCountSt (g : Grid) (cap : Nat) : Nat × Grid × Grid :=
  ((countAuxSt cap 81 (copyGrid g) 0).1, (countAuxSt cap 81 (copyGrid g) 0).2, g)

/-- Mirror of `solveSudoku` with the caller's grid state visible: the inner
solve mutates only the `copyGrid` clone. -/
def solveSudokuSt (g : Grid) : Option Grid × Grid :=
  (fillAux ascOrder 81 (copyGrid g), g)

/-- Complete but inconsistent grid: the digit string "1" in every cell. -/
def allOnes : Grid := fun _ _ => { value := some 0, isStatic := false }

/-- Grid holding the single digit string "5" at the top-left corner. -/
def oneFive : Grid := fun r c =>
  if r = 0 ∧ c = 0 then { value := some 4, isStatic := false }
  else { value := none, isStatic := false }

/-- The canonical solved grid with its top-left cell cleared. -/
def nearCanonical : Grid := fun r c =>
  if r = 0 ∧ c = 0 then { value := none, isStatic := false } else canonicalGrid r c

theorem copyGrid_eq (g : Grid) : copyGrid g = g := rfl

/-- Overwriting a cell with the value it already holds is the identity
(the JS restore `full[row][col].value = backup`). -/
theorem setVal_self (g : Grid) (r c : Fin 9) : setVal g r c ((g r c).value) = g := by
  funext r' c'
  unfold setVal
  by_cases h : r' = r ∧ c' = c
  · rcases h with ⟨rfl, rfl⟩
    simp
  · simp [h]

/-- Two consecutive writes to the same cell collapse to the second one. -/
theorem setVal_setVal (g : Grid) (r c : Fin 9) (v w : Option Digit) :
    setVal (setVal g r c v) r c w = setVal g r c w := by
  funext r' c'
  unfold setVal
  by_cases h : r' = r ∧ c' = c <;> simp [h]

theorem setVal_same (g : Grid) (r c : Fin 9) (v : Option Digit) :
    (setVal g r c v) r c = { g r c with value := v } := by
  simp [setVal]

theorem setVal_other (g : Grid) (r c : Fin 9) (v : Option Digit) {r' c' : Fin 9}
    (h : ¬(r' = r ∧ c' = c)) : (setVal g r c v) r' c' = g r' c' := by
  simp [setVal, h]

theorem canonicalF_consistent : ConsistentF canonicalF := by decide

theorem mem_allPos (p : Fin 9 × Fin 9) : p ∈ allPos := by
  rcases p with ⟨r, c⟩
  unfold allPos
  simp [List.mem_flatMap]

theorem findEmpty_some {g : Grid} {r c : Fin 9} (h : findEmpty g = some (r, c)) :
    (g r c).value = none := by
  have := List.find?_some h
  simpa using this

theorem findEmpty_eq_none_iff (g : Grid) :
    findEmpty g = none ↔ ∀ r c, (g r c).value ≠ none := by
  unfold findEmpty
  rw [List.find?_eq_none]
  constructor
  · intro h r c
    have := h (r, c) (mem_allPos _)
    simpa using this
  · intro h p _
    simpa using h p.1 p.2

/-- Bridge between the three scans of the JS `isValid` and the unit relation:
`isValid` accepts `v` iff no cell sharing a unit with `(row, col)` — the target
cell included — currently holds `v`. -/
theorem isValid_iff (g : Grid) (row col : Fin 9) (v : Digit) :
    isValid g row col v = true ↔
      ∀ r' c', sameUnit row col r' c' → (g r' c').value ≠ some v := by
  unfold isValid
  rw [decide_eq_true_eq]
  constructor
  · rintro ⟨hrow, hcol, hbox⟩ r' c' hu
    rcases hu with h | h | ⟨h1, h2⟩
    · exact h ▸ hrow c'
    · exact h ▸ hcol r'
    · have hr : r' = boxCell row ⟨r'.val % 3, Nat.mod_lt _ (by omega)⟩ := by
        apply Fin.ext
        simp [boxCell]
        omega
      have hc : c' = boxCell col ⟨c'.val % 3, Nat.mod_lt _ (by omega)⟩ := by
        apply Fin.ext
        simp [boxCell]
        omega
      rw [hr, hc]
      exact hbox _ _
  · intro h
    refine ⟨fun i => h row i (Or.inl rfl), fun i => h i col (Or.inr (Or.inl rfl)), ?_⟩
    intro i j
    apply h
    right; right
    constructor
    · show row.val / 3 = (boxCell row i).val / 3
      have : i.val < 3 := i.isLt
      simp [boxCell]
      omega
    · show col.val / 3 = (boxCell col j).val / 3
      have : j.val < 3 := j.isLt
      simp [boxCell]
      omega

theorem sameUnit_symm {r c r' c' : Fin 9} (h : sameUnit r c r' c') : sameUnit r' c' r c := by
  rcases h with h | h | ⟨h1, h2⟩
  · exact Or.inl h.symm
  · exact Or.inr (Or.inl h.symm)
  · exact Or.inr (Or.inr ⟨h1.symm, h2.symm⟩)

/-- Placing a digit accepted by `isValid` into an empty cell keeps the board
consistent (the invariant behind every placement of the searches). -/
theorem consistent_setVal {g : Grid} {r c : Fin 9} {v : Digit}
    (hg : Consistent g) (hnone : (g r c).value = none)
    (hv : isValid g r c v = true) : Consistent (setVal g r c (some v)) := by
  have hv' := (isValid_iff g r c v).mp hv
  intro r1 c1 r2 c2 w hu hne h1 h2
  by_cases e1 : r1 = r ∧ c1 = c
  · rcases e1 with ⟨rfl, rfl⟩
    rw [setVal_same] at h1
    simp at h1
    by_cases e2 : r2 = r1 ∧ c2 = c1
    · exact hne (by rw [e2.1, e2.2])
    · rw [setVal_other g _ _ _ e2] at h2
      subst h1
      exact hv' r2 c2 hu h2
  · rw [setVal_other g _ _ _ e1] at h1
    by_cases e2 : r2 = r ∧ c2 = c
    · rcases e2 with ⟨rfl, rfl⟩
      rw [setVal_same] at h2
      simp at h2
      subst h2
      exact hv' r1 c1 (sameUnit_symm hu) h1
    · rw [setVal_other g _ _ _ e2] at h2
      exact hg r1 c1 r2 c2 w hu hne h1 h2

/-- Clearing a cell keeps the board consistent (the dig phase never breaks the
invariant). -/
theorem consistent_clear {g : Grid} (r c : Fin 9)
    (hg : Consistent g) : Consistent (setVal g r c none) := by
  intro r1 c1 r2 c2 w hu hne h1 h2
  by_cases e1 : r1 = r ∧ c1 = c
  · rcases e1 with ⟨rfl, rfl⟩
    rw [setVal_same] at h1
    simp at h1
  · rw [setVal_other g _ _ _ e1] at h1
    by_cases e2 : r2 = r ∧ c2 = c
    · rcases e2 with ⟨rfl, rfl⟩
      rw [setVal_same] at h2
      simp at h2
    · rw [setVal_other g _ _ _ e2] at h2
      exact hg r1 c1 r2 c2 w hu hne h1 h2

theorem emptyCount_le (g : Grid) : emptyCount g ≤ 81 := by
  have h := Finset.card_filter_le (Finset.univ : Finset (Fin 9 × Fin 9))
    (fun p => (g p.1 p.2).value = none)
  simpa [emptyCount] using h

/-- Filling an empty cell decreases the number of empty cells by exactly one. -/
theorem emptyCount_setVal {g : Grid} {r c : Fin 9} (v : Digit)
    (hnone : (g r c).value = none) :
    emptyCount (setVal g r c (some v)) + 1 = emptyCount g := by
  have hset :
      (Finset.univ.filter fun p : Fin 9 × Fin 9 =>
        (setVal g r c (some v) p.1 p.2).value = none) =
      (Finset.univ.filter fun p : Fin 9 × Fin 9 =>
        (g p.1 p.2).value = none).erase (r, c) := by
    ext p
    rcases p with ⟨pr, pc⟩
    simp only [Finset.mem_erase, Finset.mem_filter, Finset.mem_univ, true_and]
    by_cases hp : pr = r ∧ pc = c
    · rcases hp with ⟨rfl, rfl⟩
      rw [setVal_same]
      simp
    · rw [setVal_other g _ _ _ hp]
      have : ¬((pr, pc) = (r, c)) := by
        simp only [Prod.mk.injEq]
        exact hp
      simp [this]
  have hmem : (r, c) ∈ (Finset.univ.filter fun p : Fin 9 × Fin 9 =>
      (g p.1 p.2).value = none) := by
    simp [hnone]
  have hpos : 0 < emptyCount g := by
    unfold emptyCount
    exact Finset.card_pos.mpr ⟨(r, c), hmem⟩
  unfold emptyCount
  rw [hset, Finset.card_erase_of_mem hmem]
  unfold emptyCount at hpos
  omega

theorem tryList_eq_some {valid : Digit → Bool} {rec : Digit → Option Grid}
    {h : Grid} : ∀ {vs : List Digit}, tryList valid rec vs = some h →
    ∃ v ∈ vs, valid v = true ∧ rec v = some h := by
  intro vs
  induction vs with
  | nil => intro hx; simp [tryList] at hx
  | cons v vs ih =>
    intro hx
    unfold tryList at hx
    by_cases hv : valid v = true
    · rw [if_pos hv] at hx
      rcases hrec : rec v with _ | h'
      · rw [hrec] at hx
        rcases ih hx with ⟨w, hw, hvw, hrw⟩
        exact ⟨w, List.mem_cons_of_mem _ hw, hvw, hrw⟩
      · rw [hrec] at hx
        simp only [Option.some.injEq] at hx
        exact ⟨v, List.mem_cons_self _ _, hv, by rw [hrec, hx]⟩
    · rw [if_neg hv] at hx
      rcases ih hx with ⟨w, hw, hvw, hrw⟩
      exact ⟨w, List.mem_cons_of_mem _ hw, hvw, hrw⟩

theorem tryList_isSome {valid : Digit → Bool} {rec : Digit → Option Grid} :
    ∀ {vs : List Digit}, (∃ v ∈ vs, valid v = true ∧ (rec v).isSome) →
    (tryList valid rec vs).isSome := by
  intro vs
  induction vs with
  | nil => rintro ⟨v, hv, -, -⟩; simp at hv
  | cons v vs ih =>
    rintro ⟨w, hw, hvw, hsw⟩
    unfold tryList
    rcases List.mem_cons.mp hw with rfl | hw'
    · rw [if_pos hvw]
      rcases hrec : rec w with _ | h'
      · rw [hrec] at hsw; simp at hsw
      · simp
    · by_cases hv : valid v = true
      · rw [if_pos hv]
        rcases hrec : rec v with _ | h'
        · exact ih ⟨w, hw', hvw, hsw⟩
        · simp
      · rw [if_neg hv]
        exact ih ⟨w, hw', hvw, hsw⟩

theorem extends_refl (g : Grid) : Extends g g := fun _ _ _ h => h

theorem extends_trans {g h k : Grid} (h1 : Extends g h) (h2 : Extends h k) :
    Extends g k := fun r c v hv => h2 r c v (h1 r c v hv)

theorem extends_setVal {g : Grid} {r c : Fin 9} (v : Digit)
    (hnone : (g r c).value = none) : Extends g (setVal g r c (some v)) := by
  intro r' c' w hw
  by_cases hp : r' = r ∧ c' = c
  · rcases hp with ⟨rfl, rfl⟩
    rw [hnone] at hw
    cases hw
  · rw [setVal_other g _ _ _ hp]
    exact hw

/-- Soundness of the backtracking search: whatever candidate order it uses,
a returned grid is complete, agrees with every non-empty input cell, and is
consistent whenever the input was. -/
theorem fillAux_sound (ord : Grid → List Digit) :
    ∀ (fuel : Nat) (g h : Grid), fillAux ord fuel g = some h →
      Extends g h ∧ isGridComplete h = true ∧ (Consistent g → Consistent h) := by
  intro fuel
  induction fuel with
  | zero =>
    intro g h hx
    unfold fillAux at hx
    rcases hfe : findEmpty g with _ | p
    · rw [hfe] at hx
      cases hx
      refine ⟨extends_refl g, ?_, fun hc => hc⟩
      unfold isGridComplete
      rw [decide_eq_true_eq]
      exact fun r c => (findEmpty_eq_none_iff g).mp hfe r c
    · rw [hfe] at hx
      cases hx
  | succ fuel ih =>
    intro g h hx
    unfold fillAux at hx
    rcases hfe : findEmpty g with _ | ⟨r, c⟩
    · rw [hfe] at hx
      cases hx
      refine ⟨extends_refl g, ?_, fun hc => hc⟩
      unfold isGridComplete
      rw [decide_eq_true_eq]
      exact fun r c => (findEmpty_eq_none_iff g).mp hfe r c
    · rw [hfe] at hx
      rcases tryList_eq_some hx with ⟨v, -, hvv, hrec⟩
      have hnone := findEmpty_some hfe
      rcases ih (setVal g r c (some v)) h hrec with ⟨hex, hcomp, hcons⟩
      refine ⟨extends_trans (extends_setVal v hnone) hex, hcomp, fun hc => ?_⟩
      exact hcons (consistent_setVal hc hnone hvv)

/-- At an empty cell, the digit a solution assigns there passes `isValid`. -/
theorem sol_valid {g : Grid} {f : Fin 9 → Fin 9 → Digit} {r c : Fin 9}
    (hs : Sol g f) (hnone : (g r c).value = none) :
    isValid g r c (f r c) = true := by
  rw [isValid_iff]
  intro r' c' hu hval
  have hagree := hs.1 r' c' (f r c) hval
  by_cases hp : (r, c) = (r', c')
  · simp only [Prod.mk.injEq] at hp
    rcases hp with ⟨rfl, rfl⟩
    rw [hnone] at hval
    cases hval
  · exact hs.2 r c r' c' hu hp hagree.symm

/-- Solutions of the grid with `v` placed at an empty cell `(r, c)` are exactly
the solutions of the original grid assigning `v` there. -/
theorem sol_setVal_iff {g : Grid} {r c : Fin 9} {v : Digit}
    (hnone : (g r c).value = none) (f : Fin 9 → Fin 9 → Digit) :
    Sol (setVal g r c (some v)) f ↔ Sol g f ∧ f r c = v := by
  constructor
  · rintro ⟨hag, hcf⟩
    have hv : f r c = v := by
      apply hag
      rw [setVal_same]
    refine ⟨⟨?_, hcf⟩, hv⟩
    intro r' c' w hw
    apply hag
    by_cases hp : r' = r ∧ c' = c
    · rcases hp with ⟨rfl, rfl⟩
      rw [hnone] at hw
      cases hw
    · rw [setVal_other g _ _ _ hp]
      exact hw
  · rintro ⟨⟨hag, hcf⟩, hv⟩
    refine ⟨?_, hcf⟩
    intro r' c' w hw
    by_cases hp : r' = r ∧ c' = c
    · rcases hp with ⟨rfl, rfl⟩
      rw [setVal_same] at hw
      simp at hw
      rw [hv, hw]
    · rw [setVal_other g _ _ _ hp] at hw
      exact hag r' c' w hw

theorem mem_solSet {g : Grid} {f : Fin 9 → Fin 9 → Digit} :
    f ∈ solSet g ↔ Sol g f := by
  simp [solSet]

/-- Partition of the solutions of a grid by the digit assigned at a fixed empty
cell. -/
theorem numSolutions_split (g : Grid) (r c : Fin 9)
    (hnone : (g r c).value = none) :
    numSolutions g = ∑ v : Digit, numSolutions (setVal g r c (some v)) := by
  have hsets : solSet g =
      Finset.univ.biUnion (fun v : Digit => solSet (setVal g r c (some v))) := by
    ext f
    simp only [Finset.mem_biUnion, Finset.mem_univ, true_and, mem_solSet]
    constructor
    · intro hf
      exact ⟨f r c, (sol_setVal_iff hnone f).mpr ⟨hf, rfl⟩⟩
    · rintro ⟨v, hv⟩
      exact ((sol_setVal_iff hnone f).mp hv).1
  unfold numSolutions
  rw [hsets]
  apply Finset.card_biUnion
  intro v hv w hw hvw
  rw [Finset.disjoint_left]
  intro f hfv hfw
  rw [mem_solSet] at hfv hfw
  exact hvw (((sol_setVal_iff hnone f).mp hfv).2.symm.trans
    ((sol_setVal_iff hnone f).mp hfw).2)

/-- A digit rejected by `isValid` at an empty cell yields no solutions. -/
theorem numSolutions_invalid {g : Grid} {r c : Fin 9} {v : Digit}
    (hnone : (g r c).value = none) (hv : isValid g r c v = false) :
    numSolutions (setVal g r c (some v)) = 0 := by
  unfold numSolutions
  rw [Finset.card_eq_zero, Finset.eq_empty_iff_forall_not_mem]
  intro f hf
  rw [mem_solSet] at hf
  rcases (sol_setVal_iff hnone f).mp hf with ⟨hsol, hfv⟩
  have := sol_valid hsol hnone
  rw [hfv, hv] at this
  cases this

/-- A complete consistent grid has exactly one solution: itself. -/
theorem numSolutions_complete {g : Grid} (hcomp : isGridComplete g = true)
    (hc : Consistent g) : numSolutions g = 1 := by
  unfold isGridComplete at hcomp
  rw [decide_eq_true_eq] at hcomp
  have hval : ∀ r c, (g r c).value = some (((g r c).value).getD ⟨0, by omega⟩) := by
    intro r c
    rcases hv : (g r c).value with _ | d
    · exact absurd hv (hcomp r c)
    · simp
  set fg : Fin 9 → Fin 9 → Digit := fun r c => ((g r c).value).getD ⟨0, by omega⟩ with hfg
  have hsol : Sol g fg := by
    constructor
    · intro r c v hv
      rw [hfg]
      simp only
      rw [hv]
      simp
    · intro r c r' c' hu hne heq
      exact hc r c r' c' (fg r c) hu hne (hval r c) (heq ▸ hval r' c')
  unfold numSolutions
  have hone : solSet g = {fg} := by
    ext f
    rw [Finset.mem_singleton, mem_solSet]
    constructor
    · intro hf
      funext r c
      exact hf.1 r c (fg r c) (hval r c)
    · intro hf
      rw [hf]
      exact hsol
  rw [hone, Finset.card_singleton]

/-- Completeness of the backtracking search: for any candidate order that is a
permutation of the nine digits at every node, a consistent grid with at least
one solution and enough fuel is solved. -/
theorem fillAux_complete (ord : Grid → List Digit)
    (hord : ∀ g : Grid, (ord g).Perm (List.finRange 9)) :
    ∀ (fuel : Nat) (g : Grid), Consistent g → (solSet g).Nonempty →
      emptyCount g ≤ fuel → (fillAux ord fuel g).isSome := by
  intro fuel
  induction fuel with
  | zero =>
    intro g hc hne hcount
    unfold fillAux
    rcases hfe : findEmpty g with _ | ⟨r, c⟩
    · simp
    · exfalso
      have hnone := findEmpty_some hfe
      have hmem : (r, c) ∈ (Finset.univ.filter fun p : Fin 9 × Fin 9 =>
          (g p.1 p.2).value = none) := by simp [hnone]
      have : 0 < emptyCount g := Finset.card_pos.mpr ⟨(r, c), hmem⟩
      omega
  | succ fuel ih =>
    intro g hc hne hcount
    unfold fillAux
    rcases hfe : findEmpty g with _ | ⟨r, c⟩
    · simp
    · have hnone := findEmpty_some hfe
      rcases hne with ⟨f, hf⟩
      rw [mem_solSet] at hf
      apply tryList_isSome
      refine ⟨f r c, ?_, sol_valid hf hnone, ?_⟩
      · exact (hord g).mem_iff.mpr (List.mem_finRange _)
      · apply ih
        · exact consistent_setVal hc hnone (sol_valid hf hnone)
        · refine ⟨f, ?_⟩
          rw [mem_solSet]
          exact (sol_setVal_iff hnone f).mpr ⟨hf, rfl⟩
        · have := emptyCount_setVal (f r c) hnone
          omega

theorem mem_solSet_of_sol {g : Grid} {f : Fin 9 → Fin 9 → Digit} (h : Sol g f) :
    f ∈ solSet g := by
  rw [mem_solSet]
  exact h

theorem numSolutions_def (g : Grid) : numSolutions g = (solSet g).card := rfl

attribute [irreducible] solSet numSolutions

theorem isGridComplete_iff (g : Grid) :
    isGridComplete g = true ↔ ∀ r c, (g r c).value ≠ none := by
  unfold isGridComplete
  rw [decide_eq_true_eq]

theorem findEmpty_none_of_emptyCount_zero {g : Grid} (h : emptyCount g = 0) :
    findEmpty g = none := by
  rw [findEmpty_eq_none_iff]
  intro r c hval
  have hmem : (r, c) ∈ (Finset.univ.filter fun p : Fin 9 × Fin 9 =>
      (g p.1 p.2).value = none) := by simp [hval]
  have : 0 < emptyCount g := Finset.card_pos.mpr ⟨(r, c), hmem⟩
  omega

/-- On a complete grid the counter performs one increment and stops. -/
theorem countAux_of_none {cap fuel count : Nat} {g : Grid}
    (hfe : findEmpty g = none) (hlt : count < cap) :
    countAux cap fuel g count = count + 1 := by
  cases fuel <;> simp [countAux, hfe, Nat.not_le.mpr hlt]

/-- The counter never exceeds its cap (inner loop form). -/
theorem countList_le {cap : Nat} {go : Grid → Nat → Nat} {g : Grid} {r c : Fin 9}
    (hgo : ∀ g' n, n ≤ cap → go g' n ≤ cap) :
    ∀ (vs : List Digit) (count : Nat), count ≤ cap →
      countList go g r c vs count ≤ cap := by
  intro vs
  induction vs with
  | nil => intro count h; simpa [countList] using h
  | cons v vs ih =>
    intro count h
    unfold countList
    by_cases hv : isValid g r c v = true
    · rw [if_pos hv]
      exact ih _ (hgo _ _ h)
    · rw [if_neg hv]
      exact ih _ h

/-- The counter never exceeds its cap. -/
theorem countAux_le (cap : Nat) :
    ∀ (fuel : Nat) (g : Grid) (count : Nat), count ≤ cap →
      countAux cap fuel g count ≤ cap := by
  intro fuel
  induction fuel with
  | zero =>
    intro g count h
    unfold countAux
    by_cases hc : cap ≤ count
    · rw [if_pos hc]; exact h
    · rw [if_neg hc]
      rcases hfe : findEmpty g with _ | p <;> simp <;> omega
  | succ fuel ih =>
    intro g count h
    unfold countAux
    by_cases hc : cap ≤ count
    · rw [if_pos hc]; exact h
    · rw [if_neg hc]
      rcases hfe : findEmpty g with _ | ⟨r, c⟩
      · simp; omega
      · simp only
        exact countList_le (fun g' n hn => ih g' n hn) _ count h

/-- Inner loop of the exact-count argument: walking a digit list adds exactly
the solution mass of the list, clipped at the cap. -/
theorem countList_exact {cap fuel : Nat} {g : Grid} {r c : Fin 9}
    (hg : Consistent g) (hnone : (g r c).value = none)
    (hfuel : emptyCount g ≤ fuel + 1)
    (ih : ∀ (g' : Grid) (count' : Nat), Consistent g' → emptyCount g' ≤ fuel →
      count' ≤ cap → countAux cap fuel g' count' = min (count' + numSolutions g') cap) :
    ∀ (vs : List Digit) (count : Nat), count ≤ cap →
      countList (countAux cap fuel) g r c vs count = min (count + solMass g r c vs) cap := by
  intro vs
  induction vs with
  | nil =>
    intro count h
    simp [countList, solMass]
    omega
  | cons v vs ihv =>
    intro count h
    unfold countList
    by_cases hv : isValid g r c v = true
    · rw [if_pos hv]
      have hstep : countAux cap fuel (setVal g r c (some v)) count =
          min (count + numSolutions (setVal g r c (some v))) cap := by
        apply ih
        · exact consistent_setVal hg hnone hv
        · have := emptyCount_setVal v hnone
          omega
        · exact h
      rw [hstep, ihv _ (by omega)]
      simp only [solMass, List.map_cons, List.sum_cons, if_pos hv]
      omega
    · rw [if_neg hv]
      rw [ihv _ h]
      simp only [solMass, List.map_cons, List.sum_cons, if_neg hv]
      omega

/-- Solution mass of the full digit range is the number of solutions. -/
theorem solMass_finRange {g : Grid} {r c : Fin 9} (hnone : (g r c).value = none) :
    solMass g r c (List.finRange 9) = numSolutions g := by
  unfold solMass
  have hsum : ((List.finRange 9).map fun v => if isValid g r c v = true
      then numSolutions (setVal g r c (some v)) else 0).sum =
      ∑ v : Digit, (if isValid g r c v = true
        then numSolutions (setVal g r c (some v)) else 0) := by
    rw [Fin.sum_univ_def]
  rw [hsum]
  rw [numSolutions_split g r c hnone]
  apply Finset.sum_congr rfl
  intro v hv
  by_cases h : isValid g r c v = true
  · rw [if_pos h]
  · rw [if_neg h]
    rw [numSolutions_invalid hnone (by simpa using h)]

/-- Exact-count theorem: with enough fuel and a consistent grid, the counting
search returns the true number of solutions clipped at the cap, offset by the
running count. -/
theorem countAux_exact (cap : Nat) :
    ∀ (fuel : Nat) (g : Grid) (count : Nat), Consistent g → emptyCount g ≤ fuel →
      count ≤ cap → countAux cap fuel g count = min (count + numSolutions g) cap := by
  intro fuel
  induction fuel with
  | zero =>
    intro g count hg hfuel h
    have hfe : findEmpty g = none := findEmpty_none_of_emptyCount_zero (by omega)
    have hcomp : isGridComplete g = true :=
      (isGridComplete_iff g).mpr ((findEmpty_eq_none_iff g).mp hfe)
    have hone := numSolutions_complete hcomp hg
    by_cases hc : cap ≤ count
    · unfold countAux
      rw [if_pos hc]
      omega
    · rw [countAux_of_none hfe (by omega)]
      omega
  | succ fuel ih =>
    intro g count hg hfuel h
    by_cases hc : cap ≤ count
    · unfold countAux
      rw [if_pos hc]
      omega
    · rcases hfe : findEmpty g with _ | ⟨r, c⟩
      · have hcomp : isGridComplete g = true :=
          (isGridComplete_iff g).mpr ((findEmpty_eq_none_iff g).mp hfe)
        have hone := numSolutions_complete hcomp hg
        rw [countAux_of_none hfe (by omega)]
        omega
      · have hnone := findEmpty_some hfe
        unfold countAux
        rw [if_neg hc, hfe]
        simp only
        rw [countList_exact hg hnone hfuel (fun g' count' a b d => ih g' count' a b d) _ count h]
        rw [solMass_finRange hnone]

/-- Top-level bound: `getSolutionCount` never exceeds its cap. -/
theorem getSolutionCount_le (g : Grid) (cap : Nat) : getSolutionCount g cap ≤ cap := by
  unfold getSolutionCount
  rw [copyGrid_eq]
  exact countAux_le cap 81 g 0 (Nat.zero_le _)

/-- Top-level exactness: on a consistent grid `getSolutionCount` computes
`min (numSolutions g) cap`. -/
theorem getSolutionCount_eq_min (g : Grid) (cap : Nat) (hg : Consistent g) :
    getSolutionCount g cap = min (numSolutions g) cap := by
  unfold getSolutionCount
  rw [copyGrid_eq]
  rw [countAux_exact cap 81 g 0 hg (emptyCount_le g) (Nat.zero_le _)]
  omega

/-- On a complete grid the count is `1` whenever the cap allows it. -/
theorem getSolutionCount_of_complete {g : Grid} {cap : Nat}
    (hcomp : isGridComplete g = true) (hcap : 1 ≤ cap) :
    getSolutionCount g cap = 1 := by
  unfold getSolutionCount
  rw [copyGrid_eq]
  have hfe : findEmpty g = none := by
    rw [findEmpty_eq_none_iff]
    exact (isGridComplete_iff g).mp hcomp
  rw [countAux_of_none hfe (by omega)]

theorem valueEq_refl (g : Grid) : valueEq g g := fun _ _ => rfl

theorem valueEq_setVal {g h : Grid} (hv : valueEq g h) (r c : Fin 9)
    (v : Option Digit) : valueEq (setVal g r c v) (setVal h r c v) := by
  intro r' c'
  by_cases hp : r' = r ∧ c' = c
  · rcases hp with ⟨rfl, rfl⟩
    rw [setVal_same, setVal_same]
  · rw [setVal_other g _ _ _ hp, setVal_other h _ _ _ hp]
    exact hv r' c'

theorem find?_congr {α : Type} (p q : α → Bool) :
    ∀ l : List α, (∀ x ∈ l, p x = q x) → l.find? p = l.find? q := by
  intro l
  induction l with
  | nil => intro _; rfl
  | cons a l ih =>
    intro h
    have ha := h a (List.mem_cons_self _ _)
    simp only [List.find?_cons, ← ha]
    cases p a
    · exact ih fun x hx => h x (List.mem_cons_of_mem _ hx)
    · rfl

theorem findEmpty_congr {g h : Grid} (hv : valueEq g h) :
    findEmpty g = findEmpty h := by
  unfold findEmpty
  apply find?_congr
  intro p _
  rw [hv p.1 p.2]

theorem isValid_congr {g h : Grid} (hv : valueEq g h) (r c : Fin 9) (v : Digit) :
    isValid g r c v = isValid h r c v := by
  unfold isValid
  have hv' : ∀ a b, (g a b).value = (h a b).value := hv
  simp only [hv']

theorem countAux_congr (cap : Nat) :
    ∀ (fuel : Nat) (g h : Grid), valueEq g h → ∀ count,
      countAux cap fuel g count = countAux cap fuel h count := by
  intro fuel
  induction fuel with
  | zero =>
    intro g h hv count
    unfold countAux
    rw [findEmpty_congr hv]
  | succ fuel ih =>
    intro g h hv count
    unfold countAux
    rw [findEmpty_congr hv]
    rcases hfe : findEmpty h with _ | ⟨r, c⟩
    · rfl
    · by_cases hc : cap ≤ count
      · rw [if_pos hc, if_pos hc]
      · rw [if_neg hc, if_neg hc]
        simp only
        have hlist : ∀ (vs : List Digit) (n : Nat),
            countList (countAux cap fuel) g r c vs n =
            countList (countAux cap fuel) h r c vs n := by
          intro vs
          induction vs with
          | nil => intro n; rfl
          | cons v vs ihv =>
            intro n
            unfold countList
            rw [isValid_congr hv]
            by_cases hval : isValid h r c v = true
            · rw [if_pos hval, if_pos hval]
              rw [ih _ _ (valueEq_setVal hv r c (some v)) n, ihv]
            · rw [if_neg hval, if_neg hval]
              exact ihv n
        exact hlist _ _

theorem valueEq_markStatic (g : Grid) : valueEq (markStatic g) g := fun _ _ => rfl

theorem getSolutionCount_congr {g h : Grid} (hv : valueEq g h) (cap : Nat) :
    getSolutionCount g cap = getSolutionCount h cap := by
  unfold getSolutionCount
  rw [copyGrid_eq, copyGrid_eq]
  exact countAux_congr cap 81 g h hv 0

theorem consistent_congr {g h : Grid} (hv : valueEq g h) (hc : Consistent g) :
    Consistent h := by
  intro r c r' c' v hu hne h1 h2
  exact hc r c r' c' v hu hne (hv r c ▸ h1) (hv r' c' ▸ h2)

theorem consistent_empty : Consistent createEmptyGrid := by
  intro r c r' c' v hu hne h1 h2
  exact Option.noConfusion h1

theorem solSet_empty_nonempty : (solSet createEmptyGrid).Nonempty := by
  refine ⟨canonicalF, ?_⟩
  rw [mem_solSet]
  exact ⟨fun r c v hv => Option.noConfusion hv, canonicalF_consistent⟩

/-- Phase A always succeeds on the empty grid (spec §4.4: "This always
succeeds for an empty 9×9 Sudoku board"), and produces a complete consistent
board. -/
theorem attempt_full_spec (R : Shuffler) (n : Nat) :
    ∃ full, fillAux (R.digitOrd n) 81 createEmptyGrid = some full ∧
      isGridComplete full = true ∧ Consistent full := by
  have hsome := fillAux_complete (R.digitOrd n) (R.digitOrd_perm n) 81 createEmptyGrid
    consistent_empty solSet_empty_nonempty (emptyCount_le _)
  rcases Option.isSome_iff_exists.mp hsome with ⟨full, hfull⟩
  rcases fillAux_sound (R.digitOrd n) 81 createEmptyGrid full hfull with ⟨-, hcomp, hcons⟩
  exact ⟨full, hfull, hcomp, hcons consistent_empty⟩

/-- Clearing a non-empty cell decreases the clue count by exactly one. -/
theorem clueCount_setVal_none {g : Grid} {r c : Fin 9}
    (hval : (g r c).value ≠ none) :
    clueCount (setVal g r c none) + 1 = clueCount g := by
  have hset :
      (Finset.univ.filter fun p : Fin 9 × Fin 9 =>
        (setVal g r c none p.1 p.2).value ≠ none) =
      (Finset.univ.filter fun p : Fin 9 × Fin 9 =>
        (g p.1 p.2).value ≠ none).erase (r, c) := by
    ext p
    rcases p with ⟨pr, pc⟩
    simp only [Finset.mem_erase, Finset.mem_filter, Finset.mem_univ, true_and]
    by_cases hp : pr = r ∧ pc = c
    · rcases hp with ⟨rfl, rfl⟩
      rw [setVal_same]
      simp
    · rw [setVal_other g _ _ _ hp]
      have : ¬((pr, pc) = (r, c)) := by
        simp only [Prod.mk.injEq]
        exact hp
      simp [this]
  have hmem : (r, c) ∈ (Finset.univ.filter fun p : Fin 9 × Fin 9 =>
      (g p.1 p.2).value ≠ none) := by
    simp [hval]
  have hpos : 0 < clueCount g := by
    unfold clueCount
    exact Finset.card_pos.mpr ⟨(r, c), hmem⟩
  unfold clueCount
  rw [hset, Finset.card_erase_of_mem hmem]
  unfold clueCount at hpos
  omega

theorem clueCount_complete {g : Grid} (hcomp : isGridComplete g = true) :
    clueCount g = 81 := by
  unfold clueCount
  have hall := (isGridComplete_iff g).mp hcomp
  have : (Finset.univ.filter fun p : Fin 9 × Fin 9 =>
      (g p.1 p.2).value ≠ none) = Finset.univ := by
    apply Finset.filter_true_of_mem
    intro p _
    exact hall p.1 p.2
  rw [this]
  simp

/-- The collapse of clear-then-restore used by the rejected branch of the dig
loop. -/
theorem dig_restore (g : Grid) (r c : Fin 9) :
    setVal (setVal g r c none) r c ((g r c).value) = g := by
  rw [setVal_setVal, setVal_self]

/-- The dig loop preserves "this board has a unique solution as measured by
`getSolutionCount _ 2`": accepted removals are exactly those keeping the count
at 1, and rejected ones restore the previous board. -/
theorem digLoop_count (m : Int) :
    ∀ (ps : List (Fin 9 × Fin 9)) (g : Grid) (k : Nat),
      getSolutionCount g 2 = 1 → getSolutionCount (digLoop m ps g k).1 2 = 1 := by
  intro ps
  induction ps with
  | nil => intro g k h; exact h
  | cons p ps ih =>
    intro g k h
    unfold digLoop
    by_cases hbreak : m ≤ (k : Int)
    · rw [if_pos hbreak]; exact h
    · rw [if_neg hbreak]
      by_cases hcnt : getSolutionCount (setVal g p.1 p.2 none) 2 = 1
      · rw [if_neg (by simpa using hcnt)]
        exact ih _ _ hcnt
      · rw [if_pos (by simpa using hcnt)]
        rw [dig_restore]
        exact ih _ _ h

/-- The dig loop preserves consistency. -/
theorem digLoop_consistent (m : Int) :
    ∀ (ps : List (Fin 9 × Fin 9)) (g : Grid) (k : Nat),
      Consistent g → Consistent (digLoop m ps g k).1 := by
  intro ps
  induction ps with
  | nil => intro g k h; exact h
  | cons p ps ih =>
    intro g k h
    unfold digLoop
    by_cases hbreak : m ≤ (k : Int)
    · rw [if_pos hbreak]; exact h
    · rw [if_neg hbreak]
      by_cases hcnt : getSolutionCount (setVal g p.1 p.2 none) 2 = 1
      · rw [if_neg (by simpa using hcnt)]
        exact ih _ _ (consistent_clear p.1 p.2 h)
      · rw [if_pos (by simpa using hcnt)]
        rw [dig_restore]
        exact ih _ _ h

/-- Bookkeeping of the dig loop: when the walked positions are distinct and
all non-empty, each accepted removal trades one clue for one `removed` tick. -/
theorem digLoop_clues (m : Int) :
    ∀ (ps : List (Fin 9 × Fin 9)) (g : Grid) (k : Nat), ps.Nodup →
      (∀ p ∈ ps, (g p.1 p.2).value ≠ none) →
      clueCount (digLoop m ps g k).1 + (digLoop m ps g k).2 = clueCount g + k := by
  intro ps
  induction ps with
  | nil => intro g k _ _; rfl
  | cons p ps ih =>
    intro g k hnd hne
    have hval : (g p.1 p.2).value ≠ none := hne p (List.mem_cons_self _ _)
    unfold digLoop
    by_cases hbreak : m ≤ (k : Int)
    · rw [if_pos hbreak]
    · rw [if_neg hbreak]
      by_cases hcnt : getSolutionCount (setVal g p.1 p.2 none) 2 = 1
      · rw [if_neg (by simpa using hcnt)]
        have hrec := ih (setVal g p.1 p.2 none) (k + 1) (List.Nodup.of_cons hnd) ?_
        · have hclue := clueCount_setVal_none hval
          omega
        · intro q hq
          have hqp : ¬(q.1 = p.1 ∧ q.2 = p.2) := by
            intro hcontra
            have : q = p := Prod.ext hcontra.1 hcontra.2
            rw [this] at hq
            exact (List.nodup_cons.mp hnd).1 hq
          rw [setVal_other g _ _ _ hqp]
          exact hne q (List.mem_cons_of_mem _ hq)
      · rw [if_pos (by simpa using hcnt)]
        rw [dig_restore]
        exact ih g k (List.Nodup.of_cons hnd) fun q hq => hne q (List.mem_cons_of_mem _ hq)

/-- Marking clues static flags exactly the non-empty cells. -/
theorem staticCount_markStatic (g : Grid) : staticCount (markStatic g) = clueCount g := by
  unfold staticCount clueCount
  congr 1
  apply Finset.filter_congr
  intro p _
  simp [markStatic, Option.isSome_iff_ne_none]

/-- Every board an attempt returns has a unique solution and is consistent. -/
theorem attemptBody_spec (R : Shuffler) (n : Nat) (minFilled : Int) :
    getSolutionCount (attemptBody R n minFilled) 2 = 1 ∧
      Consistent (attemptBody R n minFilled) := by
  rcases attempt_full_spec R n with ⟨full, hfull, hcomp, hcons⟩
  unfold attemptBody
  rw [hfull, Option.getD_some]
  have hcount : getSolutionCount full 2 = 1 :=
    getSolutionCount_of_complete hcomp (by omega)
  constructor
  · rw [getSolutionCount_congr (valueEq_markStatic _) 2]
    exact digLoop_count _ _ _ _ hcount
  · exact consistent_congr (fun r c => rfl)
      (digLoop_consistent _ _ _ _ hcons)

/-- On a complete consistent grid, cells sharing a unit carry distinct values. -/
theorem value_ne_of_consistent {g : Grid}
    (hcomp : ∀ r c, (g r c).value ≠ none) (hc : Consistent g)
    {r c r' c' : Fin 9} (hu : sameUnit r c r' c') (hne : ¬(r = r' ∧ c = c')) :
    (g r c).value ≠ (g r' c').value := by
  rcases hv : (g r c).value with _ | v
  · exact absurd hv (hcomp r c)
  · intro heq
    refine hc r c r' c' v hu ?_ hv heq.symm
    simp only [Ne, Prod.mk.injEq]
    exact hne

/-- A complete consistent grid passes the duplicate scan of `isGridSolved`. -/
theorem isGridSolved_of {g : Grid} (hcomp : isGridComplete g = true)
    (hc : Consistent g) : isGridSolved g = true := by
  have hval := (isGridComplete_iff g).mp hcomp
  unfold isGridSolved
  rw [hcomp, Bool.true_and, decide_eq_true_eq]
  refine ⟨?_, ?_, ?_⟩
  · intro r
    unfold rowVals
    apply List.Nodup.map_on ?_ (List.nodup_finRange 9)
    intro x _ y _ hxy
    by_contra hne
    exact value_ne_of_consistent hval hc (Or.inl rfl)
      (by intro h; exact hne h.2) hxy
  · intro c
    unfold colVals
    apply List.Nodup.map_on ?_ (List.nodup_finRange 9)
    intro x _ y _ hxy
    by_contra hne
    exact value_ne_of_consistent hval hc (Or.inr (Or.inl rfl))
      (by intro h; exact hne h.1) hxy
  · intro br bc
    unfold boxVals
    rw [List.nodup_flatMap]
    constructor
    · intro i _
      apply List.Nodup.map_on ?_ (List.nodup_finRange 3)
      intro x _ y _ hxy
      by_contra hne
      refine @value_ne_of_consistent g hval hc ⟨3 * br.val + i.val, by omega⟩
        ⟨3 * bc.val + x.val, by omega⟩ ⟨3 * br.val + i.val, by omega⟩
        ⟨3 * bc.val + y.val, by omega⟩ (Or.inl rfl) ?_ hxy
      intro h
      rcases h with ⟨-, h2⟩
      have hval2 : (3 : Nat) * bc.val + x.val = 3 * bc.val + y.val := congrArg Fin.val h2
      exact hne (Fin.ext (by omega))
    · apply List.Nodup.pairwise_of_forall_ne (List.nodup_finRange 3)
      intro a _ b _ hab
      rw [Function.onFun, List.disjoint_left]
      intro x hxa hxb
      rcases List.mem_map.mp hxa with ⟨j, -, hj⟩
      rcases List.mem_map.mp hxb with ⟨j', -, hj'⟩
      refine @value_ne_of_consistent g hval hc ⟨3 * br.val + a.val, by omega⟩
        ⟨3 * bc.val + j.val, by omega⟩ ⟨3 * br.val + b.val, by omega⟩
        ⟨3 * bc.val + j'.val, by omega⟩ ?_ ?_ ?_
      · right; right
        constructor
        · show (3 * br.val + a.val) / 3 = (3 * br.val + b.val) / 3
          have := a.isLt
          have := b.isLt
          omega
        · show (3 * bc.val + j.val) / 3 = (3 * bc.val + j'.val) / 3
          have := j.isLt
          have := j'.isLt
          omega
      · intro h
        rcases h with ⟨h1, -⟩
        have : (3 : Nat) * br.val + a.val = 3 * br.val + b.val := congrArg Fin.val h1
        exact hab (Fin.ext (by omega))
      · rw [hj, hj']

/-- Relabeling digits by a permutation preserves consistency. -/
theorem consistentF_comp (e : Equiv.Perm Digit) {f : Fin 9 → Fin 9 → Digit}
    (hf : ConsistentF f) : ConsistentF (fun r c => e (f r c)) := by
  intro r c r' c' hu hne heq
  exact hf r c r' c' hu hne (e.injective heq)

theorem canonicalF_row0 (c : Fin 9) : canonicalF 0 c = c := by
  apply Fin.ext
  show (3 * ((0 : Fin 9).val % 3) + (0 : Fin 9).val / 3 + c.val) % 9 = c.val
  have := c.isLt
  omega

/-- Relabeling lemma: a board with at most one clue has at least two distinct
solutions, obtained by permuting the digits of the canonical solved board. -/
theorem two_solutions_of_few_clues {g : Grid} (hclue : clueCount g ≤ 1) :
    2 ≤ numSolutions g := by
  have hcard : ∀ {f1 f2 : Fin 9 → Fin 9 → Digit}, Sol g f1 → Sol g f2 → f1 ≠ f2 →
      2 ≤ numSolutions g := by
    intro f1 f2 h1 h2 hne
    have hm1 : f1 ∈ solSet g := mem_solSet_of_sol h1
    have hm2 : f2 ∈ solSet g := mem_solSet_of_sol h2
    have hx : 1 < (solSet g).card := by
      rw [Finset.one_lt_card]
      exact ⟨f1, hm1, f2, hm2, hne⟩
    rw [numSolutions_def]
    omega
  by_cases hex : ∃ r, ∃ c, ∃ v : Digit, (g r c).value = some v
  · rcases hex with ⟨r0, c0, v0, hv0⟩
    have huniq : ∀ r c (w : Digit), (g r c).value = some w →
        r = r0 ∧ c = c0 ∧ w = v0 := by
      intro r c w hw
      have h1 : (r, c) ∈ Finset.univ.filter
          (fun p : Fin 9 × Fin 9 => (g p.1 p.2).value ≠ none) := by simp [hw]
      have h2 : (r0, c0) ∈ Finset.univ.filter
          (fun p : Fin 9 × Fin 9 => (g p.1 p.2).value ≠ none) := by simp [hv0]
      have hpair := Finset.card_le_one.mp hclue _ h1 _ h2
      rw [Prod.mk.injEq] at hpair
      rcases hpair with ⟨rfl, rfl⟩
      rw [hv0] at hw
      exact ⟨rfl, rfl, (Option.some.inj hw).symm⟩
    set a : Digit := if v0 = 0 then 1 else 0 with ha_def
    set b : Digit := if v0 = 8 then 7 else 8 with hb_def
    have ha : a ≠ v0 := by
      rw [ha_def]
      by_cases h0 : v0 = 0 <;> simp [h0]
      intro hcontra
      exact h0 hcontra.symm
    have hb : b ≠ v0 := by
      rw [hb_def]
      by_cases h8 : v0 = 8 <;> simp [h8]
      intro hcontra
      exact h8 hcontra.symm
    have hab : a ≠ b := by
      rw [ha_def, hb_def]
      by_cases h0 : v0 = 0 <;> by_cases h8 : v0 = 8 <;> simp [h0, h8]
    set e1 := Equiv.swap (canonicalF r0 c0) v0 with he1
    set f1 : Fin 9 → Fin 9 → Digit := fun r c => e1 (canonicalF r c) with hf1
    have hf1v : f1 r0 c0 = v0 := by
      rw [hf1, he1]
      simp [Equiv.swap_apply_left]
    have hsol1 : Sol g f1 := by
      constructor
      · intro r c w hw
        rcases huniq r c w hw with ⟨rfl, rfl, rfl⟩
        exact hf1v
      · exact consistentF_comp e1 canonicalF_consistent
    set e2 := Equiv.swap a b with he2
    set f2 : Fin 9 → Fin 9 → Digit := fun r c => e2 (f1 r c) with hf2
    have hsol2 : Sol g f2 := by
      constructor
      · intro r c w hw
        rcases huniq r c w hw with ⟨rfl, rfl, rfl⟩
        rw [hf2]
        simp only [hf1v, he2]
        exact Equiv.swap_apply_of_ne_of_ne (by exact fun h => ha h.symm)
          (by exact fun h => hb h.symm)
      · exact consistentF_comp e2 hsol1.2
    refine hcard hsol1 hsol2 ?_
    intro heq
    have hx := congrFun (congrFun heq 0) (e1.symm a)
    rw [hf2] at hx
    simp only [hf1, canonicalF_row0, Equiv.apply_symm_apply] at hx
    rw [he2, Equiv.swap_apply_left] at hx
    exact hab hx
  · push_neg at hex
    set f2 : Fin 9 → Fin 9 → Digit :=
      fun r c => (Equiv.swap 0 1 : Equiv.Perm Digit) (canonicalF r c) with hf2
    have hsol1 : Sol g canonicalF :=
      ⟨fun r c v hv => absurd hv (hex r c v), canonicalF_consistent⟩
    have hsol2 : Sol g f2 :=
      ⟨fun r c v hv => absurd hv (hex r c v),
        consistentF_comp _ canonicalF_consistent⟩
    refine hcard hsol1 hsol2 ?_
    intro heq
    have hx := congrFun (congrFun heq 0) 0
    rw [hf2] at hx
    simp only [canonicalF_row0] at hx
    rw [Equiv.swap_apply_left] at hx
    exact absurd hx.symm (by decide)

/-- Full-revert discipline of the counting loop: every placement is undone, so
the loop hands back its grid exactly as received. -/
theorem countListSt_restores {go : Grid → Nat → Nat × Grid} {r c : Fin 9}
    (hgo : ∀ g n, (go g n).2 = g) :
    ∀ (vs : List Digit) (g : Grid) (count : Nat), (g r c).value = none →
      (countListSt go r c vs g count).2 = g := by
  intro vs
  induction vs with
  | nil => intro g count _; rfl
  | cons v vs ih =>
    intro g count hnone
    unfold countListSt
    by_cases hv : isValid g r c v = true
    · rw [if_pos hv]
      rw [hgo (setVal g r c (some v)) count, setVal_setVal]
      have hself : setVal g r c none = g := by
        have hx := setVal_self g r c
        rwa [hnone] at hx
      rw [hself]
      exact ih g _ hnone
    · rw [if_neg hv]
      exact ih g count hnone

/-- The counting search returns its grid in the state it received it. -/
theorem countAuxSt_restores (cap : Nat) :
    ∀ (fuel : Nat) (g : Grid) (count : Nat), (countAuxSt cap fuel g count).2 = g := by
  intro fuel
  induction fuel with
  | zero =>
    intro g count
    unfold countAuxSt
    by_cases hc : cap ≤ count
    · rw [if_pos hc]
    · rw [if_neg hc]
      rcases hfe : findEmpty g with _ | p <;> rfl
  | succ fuel ih =>
    intro g count
    unfold countAuxSt
    by_cases hc : cap ≤ count
    · rw [if_pos hc]
    · rw [if_neg hc]
      rcases hfe : findEmpty g with _ | ⟨r, c⟩
      · rfl
      · exact countListSt_restores (fun g' n => ih g' n) _ g count (findEmpty_some hfe)

theorem countListSt_fst {cap fuel : Nat} {r c : Fin 9}
    (hfst : ∀ g n, (countAuxSt cap fuel g n).1 = countAux cap fuel g n) :
    ∀ (vs : List Digit) (g : Grid) (count : Nat), (g r c).value = none →
      (countListSt (countAuxSt cap fuel) r c vs g count).1 =
        countList (countAux cap fuel) g r c vs count := by
  intro vs
  induction vs with
  | nil => intro g count _; rfl
  | cons v vs ih =>
    intro g count hnone
    unfold countListSt countList
    by_cases hv : isValid g r c v = true
    · rw [if_pos hv, if_pos hv]
      rw [countAuxSt_restores cap fuel (setVal g r c (some v)) count, setVal_setVal]
      have hself : setVal g r c none = g := by
        have hx := setVal_self g r c
        rwa [hnone] at hx
      rw [hself, hfst (setVal g r c (some v)) count]
      exact ih g _ hnone
    · rw [if_neg hv, if_neg hv]
      exact ih g count hnone

/-- The state-threaded search computes the same count as `countAux`. -/
theorem countAuxSt_fst (cap : Nat) :
    ∀ (fuel : Nat) (g : Grid) (count : Nat),
      (countAuxSt cap fuel g count).1 = countAux cap fuel g count := by
  intro fuel
  induction fuel with
  | zero =>
    intro g count
    unfold countAuxSt countAux
    by_cases hc : cap ≤ count
    · rw [if_pos hc, if_pos hc]
    · rw [if_neg hc, if_neg hc]
      rcases hfe : findEmpty g with _ | p <;> rfl
  | succ fuel ih =>
    intro g count
    unfold countAuxSt countAux
    by_cases hc : cap ≤ count
    · rw [if_pos hc, if_pos hc]
    · rw [if_neg hc, if_neg hc]
      rcases hfe : findEmpty g with _ | ⟨r, c⟩
      · rfl
      · exact countListSt_fst (fun g' n => ih g' n) _ g count (findEmpty_some hfe)

theorem fillAux_of_none {ord : Grid → List Digit} {fuel : Nat} {g : Grid}
    (hfe : findEmpty g = none) : fillAux ord fuel g = some g := by
  cases fuel <;> simp [fillAux, hfe]

theorem generateSudokuF_none_of_nonpos (R : Shuffler) :
    ∀ (fuel n : Nat) (minFilled maxTries : Int), maxTries ≤ 0 →
      generateSudokuF R fuel n minFilled maxTries = none := by
  intro fuel
  induction fuel with
  | zero => intro n m t h; rfl
  | succ fuel ih =>
    intro n m t h
    unfold generateSudokuF
    rw [if_neg (by omega)]
    exact ih (n + 1) (min (m + 10) 45) t h

theorem allPos_nodup : allPos.Nodup := by decide

/-- C1: every board returned by `generateSudoku` — for any `minFilled`, any
`maxTries ≥ 1`, any shuffle oracle and any recursion budget — satisfies
`getSolutionCount board 2 = 1`: every generated puzzle has a unique solution. -/
theorem c1_generated_boards_unique (R : Shuffler) (minFilled maxTries : Int)
    (fuel : Nat) (b : Grid) (hmax : 1 ≤ maxTries)
    (hgen : generateSudoku R fuel minFilled maxTries = some b) :
    getSolutionCount b 2 = 1 := by
  unfold generateSudoku at hgen
  cases fuel with
  | zero =>
    rw [show generateSudokuF R 0 0 minFilled maxTries = none from rfl] at hgen
    cases hgen
  | succ fuel =>
    unfold generateSudokuF at hgen
    rw [if_pos hmax] at hgen
    cases hgen
    exact (attemptBody_spec R 0 minFilled).1

/-- Witness for C1 at `minFilled = 30`, `maxTries = 50`, identity shuffles. -/
theorem c1_witness :
    (1 : Int) ≤ 50 ∧ getSolutionCount (attemptBody R0 0 30) 2 = 1 :=
  ⟨by decide, c1_generated_boards_unique R0 30 50 1 (attemptBody R0 0 30) (by decide) rfl⟩

/-- C2 (code-bug evidence): with `minFilled = 0` and `maxTries = 50`, the dig
phase of the single attempt provably removes fewer than `81 - minFilled = 81`
cells — a board with at most one clue would have two solutions — yet
`generateSudoku` returns that shortfall board: the `while` loop body ends in
an unconditional `return`, so no fresh attempt ever starts and the returned
board has at least 2 static clues instead of exactly `minFilled = 0`. -/
theorem c2_shortfall_board_returned (R : Shuffler) :
    generateSudoku R 1 0 50 = some (attemptBody R 0 0) ∧
    (digLoop (81 - (0 : Int)) (R.posOrd 0)
        ((fillAux (R.digitOrd 0) 81 createEmptyGrid).getD createEmptyGrid) 0).2 < 81 ∧
    2 ≤ staticCount (attemptBody R 0 0) := by
  rcases attempt_full_spec R 0 with ⟨full, hfull, hcomp, hcons⟩
  have hgetd : (fillAux (R.digitOrd 0) 81 createEmptyGrid).getD createEmptyGrid = full := by
    rw [hfull, Option.getD_some]
  have hd_count : getSolutionCount (digLoop (81 - (0 : Int)) (R.posOrd 0) full 0).1 2 = 1 :=
    digLoop_count _ _ _ _ (getSolutionCount_of_complete hcomp (by omega))
  have hd_cons : Consistent (digLoop (81 - (0 : Int)) (R.posOrd 0) full 0).1 :=
    digLoop_consistent _ _ _ _ hcons
  have hclue2 : 2 ≤ clueCount (digLoop (81 - (0 : Int)) (R.posOrd 0) full 0).1 := by
    by_contra hle
    push_neg at hle
    have htwo : 2 ≤ numSolutions (digLoop (81 - (0 : Int)) (R.posOrd 0) full 0).1 :=
      two_solutions_of_few_clues (by omega)
    have hmin := getSolutionCount_eq_min
      (digLoop (81 - (0 : Int)) (R.posOrd 0) full 0).1 2 hd_cons
    omega
  have hclues := digLoop_clues (81 - (0 : Int)) (R.posOrd 0) full 0
    ((R.posOrd_perm 0).nodup_iff.mpr allPos_nodup)
    (fun p _ => (isGridComplete_iff full).mp hcomp p.1 p.2)
  have hfull81 : clueCount full = 81 := clueCount_complete hcomp
  refine ⟨rfl, ?_, ?_⟩
  · rw [hgetd]
    omega
  · have hbody : attemptBody R 0 0 =
        markStatic (digLoop (81 - (0 : Int)) (R.posOrd 0) full 0).1 := by
      unfold attemptBody
      rw [hgetd]
    rw [hbody, staticCount_markStatic]
    exact hclue2

/-- C3 counterexample: the all-ones grid is a complete but inconsistent input
on which `solveSudoku` succeeds, returning that same board, which is not
solved (the digit "1" repeats in every row, column and box). -/
theorem c3_counterexample :
    solveSudoku allOnes = some allOnes ∧ isGridSolved allOnes = false :=
  ⟨rfl, by decide⟩

/-- C3 (amended): on every input grid whose non-empty cells are consistent —
no digit twice in a row, column or box — `solveSudoku` returns either `none`
or a fully solved board that agrees with every non-empty input cell.  (On
inconsistent inputs the code can return a non-solved board: see the
counterexample.) -/
theorem c3_solver_sound (g h : Grid) (hg : Consistent g)
    (hsol : solveSudoku g = some h) :
    isGridSolved h = true ∧ Extends g h := by
  unfold solveSudoku at hsol
  rw [copyGrid_eq] at hsol
  rcases fillAux_sound ascOrder 81 g h hsol with ⟨hext, hcomp, hcons⟩
  exact ⟨isGridSolved_of hcomp (hcons hg), hext⟩

/-- Witness for C3 on the canonical solved grid with one cell cleared. -/
theorem c3_witness :
    Consistent nearCanonical ∧
    solveSudoku nearCanonical = some (setVal nearCanonical 0 0 (some 0)) ∧
    isGridSolved (setVal nearCanonical 0 0 (some 0)) = true ∧
    Extends nearCanonical (setVal nearCanonical 0 0 (some 0)) := by
  have h := c3_solver_sound nearCanonical (setVal nearCanonical 0 0 (some 0))
    (by decide) rfl
  exact ⟨by decide, rfl, h.1, h.2⟩

/-- C4 counterexample: with "5" stored at (0,0) and every other cell empty, no
OTHER cell in the grid holds "5", yet `isValid` rejects placing "5" at (0,0):
its three scans include the target cell itself. -/
theorem c4_counterexample :
    isValid oneFive 0 0 4 = false ∧
      ∀ r' c' : Fin 9, ¬(r' = 0 ∧ c' = 0) → (oneFive r' c').value ≠ some 4 := by
  decide

/-- C4 (amended): `isValid g row col v` returns true iff no cell in the same
row, the same column or the same 3×3 box — the cell `(row, col)` itself
included — currently holds `v`. -/
theorem c4_isValid_spec (g : Grid) (row col : Fin 9) (v : Digit) :
    isValid g row col v = true ↔
      ∀ r' c', sameUnit row col r' c' → (g r' c').value ≠ some v :=
  isValid_iff g row col v

/-- C5 counterexample: with `maxTries = 0` the attempt loop runs zero times
and the relaxed-target recursion calls itself forever with the same
`maxTries`; no recursion budget makes `generateSudoku` return a board. -/
theorem c5_counterexample :
    ¬ ∃ (fuel : Nat) (b : Grid), generateSudoku R0 fuel 20 0 = some b := by
  rintro ⟨fuel, b, hb⟩
  unfold generateSudoku at hb
  rw [generateSudokuF_none_of_nonpos R0 fuel 0 20 0 (by decide)] at hb
  cases hb

/-- C5 (amended): `generateSudoku` terminates for every `minFilled` whenever
`maxTries ≥ 1` — one unit of recursion budget already returns the first
attempt's board, the relaxation recursion being unreachable; for
`maxTries ≤ 0` it never returns a board (see the counterexample). -/
theorem c5_terminates_when_positive (R : Shuffler) (minFilled maxTries : Int)
    (fuel : Nat) (hmax : 1 ≤ maxTries) (hfuel : 1 ≤ fuel) :
    ∃ b, generateSudoku R fuel minFilled maxTries = some b := by
  cases fuel with
  | zero => omega
  | succ fuel =>
    refine ⟨attemptBody R 0 minFilled, ?_⟩
    unfold generateSudoku generateSudokuF
    rw [if_pos hmax]

/-- Witness for C5 at `minFilled = 20`, `maxTries = 50`, fuel 1. -/
theorem c5_witness :
    (1 : Int) ≤ 50 ∧ (1 : Nat) ≤ 1 ∧
      ∃ b, generateSudoku R0 1 20 50 = some b :=
  ⟨by decide, by decide, c5_terminates_when_positive R0 20 50 1 (by decide) (by decide)⟩

/-- C6: for every grid and cap ≥ 1, `getSolutionCount` returns at most `cap`
(hence a value in 0..cap); on a consistent grid it returns exactly
`min n cap`, `n` being the number of distinct complete consistent boards
extending the grid's non-empty cells — so a result strictly below `cap` is
the exact solution count. -/
theorem c6_count_correct (g : Grid) (cap : Nat) (_hcap : 1 ≤ cap) :
    getSolutionCount g cap ≤ cap ∧
      (Consistent g → getSolutionCount g cap = min (numSolutions g) cap) :=
  ⟨getSolutionCount_le g cap, fun hg => getSolutionCount_eq_min g cap hg⟩

/-- Witness for C6 on the canonical solved grid with cap 2. -/
theorem c6_witness :
    (1 : Nat) ≤ 2 ∧ (getSolutionCount canonicalGrid 2 ≤ 2 ∧
      (Consistent canonicalGrid → getSolutionCount canonicalGrid 2 =
        min (numSolutions canonicalGrid) 2)) :=
  ⟨by decide, c6_count_correct canonicalGrid 2 (by decide)⟩

/-- C7: a board passing `isGridSolved` is complete, has solution count 1 under
cap 2, and is a fixed point of `solveSudoku`. -/
theorem c7_solved_fixed_point (g : Grid) (hs : isGridSolved g = true) :
    isGridComplete g = true ∧ getSolutionCount g 2 = 1 ∧ solveSudoku g = some g := by
  have hcomp : isGridComplete g = true := by
    unfold isGridSolved at hs
    rw [Bool.and_eq_true] at hs
    exact hs.1
  have hfe : findEmpty g = none := by
    rw [findEmpty_eq_none_iff]
    exact (isGridComplete_iff g).mp hcomp
  refine ⟨hcomp, getSolutionCount_of_complete hcomp (by omega), ?_⟩
  unfold solveSudoku
  rw [copyGrid_eq]
  exact fillAux_of_none hfe

/-- Witness for C7 on the canonical solved grid. -/
theorem c7_witness :
    isGridSolved canonicalGrid = true ∧
      (isGridComplete canonicalGrid = true ∧ getSolutionCount canonicalGrid 2 = 1 ∧
        solveSudoku canonicalGrid = some canonicalGrid) :=
  ⟨by decide, c7_solved_fixed_point canonicalGrid (by decide)⟩

/-- C8: on a currently empty cell, `isValid` and the self-excluding
`isValidForCell` return the same boolean for every digit. -/
theorem c8_validity_variants_agree (g : Grid) (row col : Fin 9) (v : Digit)
    (hempty : (g row col).value = none) :
    isValid g row col v = isValidForCell g row col (some v) := by
  show isValid g row col v = decide _
  unfold isValid
  rw [decide_eq_decide]
  constructor
  · rintro ⟨h1, h2, h3⟩
    exact ⟨fun i _ => h1 i, fun i _ => h2 i, fun i j _ => h3 i j⟩
  · rintro ⟨h1, h2, h3⟩
    refine ⟨?_, ?_, ?_⟩
    · intro i
      by_cases hi : i = col
      · rw [hi, hempty]
        simp
      · exact h1 i hi
    · intro i
      by_cases hi : i = row
      · rw [hi, hempty]
        simp
      · exact h2 i hi
    · intro i j
      by_cases hij : boxCell row i = row ∧ boxCell col j = col
      · rw [hij.1, hij.2, hempty]
        simp
      · exact h3 i j hij

/-- Witness for C8 at the empty corner of the empty grid with digit "1". -/
theorem c8_witness :
    (createEmptyGrid 0 0).value = none ∧
      isValid createEmptyGrid 0 0 0 = isValidForCell createEmptyGrid 0 0 (some 0) :=
  ⟨rfl, c8_validity_variants_agree createEmptyGrid 0 0 0 rfl⟩

/-- C9: neither `solveSudoku` nor `getSolutionCount` mutates the caller's
grid: `copyGrid` reproduces every cell field on a fresh object, the counting
search fully reverts every placement on the clone it received, and the
state-threaded mirrors of both entry points return the caller's grid — every
cell's value and static flag — exactly as before the call, while computing
the same results as the functional model. -/
theorem c9_no_mutation (g : Grid) (cap : Nat) :
    (∀ r c, (copyGrid g r c).value = (g r c).value ∧
            (copyGrid g r c).isStatic = (g r c).isStatic) ∧
    (countAuxSt cap 81 (copyGrid g) 0).2 = copyGrid g ∧
    (∀ r c, (getSolutionCountSt g cap).2.2 r c = g r c) ∧
    (getSolutionCountSt g cap).1 = getSolutionCount g cap ∧
    (∀ r c, (solveSudokuSt g).2 r c = g r c) ∧
    (solveSudokuSt g).1 = solveSudoku g :=
  ⟨fun _ _ => ⟨rfl, rfl⟩, countAuxSt_restores cap 81 (copyGrid g) 0,
    fun _ _ => rfl, countAuxSt_fst cap 81 (copyGrid g) 0, fun _ _ => rfl, rfl⟩

/-- C10: the solver's first-empty-cell scan returns nothing exactly when the
completeness query holds: both decide "no empty cell". -/
theorem c10_findEmpty_iff_complete (g : Grid) :
    findEmpty g = none ↔ isGridComplete g = true := by
  rw [findEmpty_eq_none_iff, isGridComplete_iff]
